import Mathlib

/-!
Verification of the clean-code analysis engine of src/src/extension.ts.

The engine operates on code units (classes and functions) produced by an
external parser (ts-morph).  Following the specification, the parser is an
external collaborator: a unit is modelled by the capability surface the
engine consumes (name, source text, class/function tag, method bodies with
their counted if/for/while descendants).  All engine algorithms —
readability scoring, metrics, responsibility tagging, duplication
detection (intra- and cross-unit via normalized Levenshtein distance),
testability/side-effect regex heuristics, dependency graph and cycle
detection, finding aggregation — are translated here from the TypeScript
source.  JavaScript floating point arithmetic is modelled by exact
rationals: all numeric comparisons performed by the engine
(score thresholds, 0.8 uniqueness ratio, 0.6 similarity threshold with the
1000 character cap) are far from the rounding error of IEEE doubles, so
the rational model and the float computation decide every comparison
identically.  Source text is modelled as List Char; regular-expression
tests are translated to explicit scanners whose semantics is derived
clause by clause from each regex in the source.
-/

/-- Text is a list of characters (JS strings, indexed by code unit). -/
abbrev Str := List Char

/-- JS regex class \w : [A-Za-z0-9_]. -/
def isWordChar (c : Char) : Bool :=
  let n := c.toNat
  (48 ≤ n && n ≤ 57) || (65 ≤ n && n ≤ 90) || (97 ≤ n && n ≤ 122) || n = 95

/-- ASCII letter (regex class [A-Za-z]). -/
def isAsciiLetter (c : Char) : Bool :=
  let n := c.toNat
  (65 ≤ n && n ≤ 90) || (97 ≤ n && n ≤ 122)

/-- ASCII letter or digit (regex class [A-Za-z0-9], no underscore). -/
def isAsciiAlnum (c : Char) : Bool :=
  let n := c.toNat
  (48 ≤ n && n ≤ 57) || (65 ≤ n && n ≤ 90) || (97 ≤ n && n ≤ 122)

/-- First character of a JS identifier token (regex class [A-Za-z_]). -/
def isIdentStart (c : Char) : Bool :=
  isAsciiLetter c || c = '_'

/-- ASCII lowercase letter (regex class [a-z]). -/
def isAsciiLower (c : Char) : Bool :=
  let n := c.toNat
  97 ≤ n && n ≤ 122

/-- JS regex class \s, also the set trimmed by String.prototype.trim:
tab, LF, VT, FF, CR, space, NBSP, ogham space, U+2000..U+200A, LS, PS,
narrow NBSP, math space, ideographic space, BOM. -/
def jsSpace (c : Char) : Bool :=
  let n := c.toNat
  n = 9 || n = 10 || n = 11 || n = 12 || n = 13 || n = 32 || n = 160 ||
  n = 5760 || (8192 ≤ n && n ≤ 8202) || n = 8232 || n = 8233 ||
  n = 8239 || n = 8287 || n = 12288 || n = 65279

/-- Does the list start with the given pattern (String.prototype.startsWith). -/
def listStartsWith : Str → Str → Bool
  | _, [] => true
  | [], _ :: _ => false
  | c :: cs, p :: ps => c = p && listStartsWith cs ps

/-- JS String.prototype.includes: the pattern occurs as a contiguous substring. -/
def containsList : Str → Str → Bool
  | [], pat => pat.isEmpty
  | c :: cs, pat => listStartsWith (c :: cs) pat || containsList cs pat

/-- includes on wrapped strings. -/
def strIncludes (hay pat : String) : Bool :=
  containsList hay.data pat.data

/-- JS String.prototype.split('\n'): split at every newline, keeping empty pieces. -/
def splitLines : Str → List Str
  | [] => [[]]
  | c :: cs =>
    if c = '\n' then [] :: splitLines cs
    else
      match splitLines cs with
      | [] => [[c]]
      | l :: ls => (c :: l) :: ls

/-- JS String.prototype.trim (both ends, class \s). -/
def jsTrim (s : Str) : Str :=
  ((s.dropWhile jsSpace).reverse.dropWhile jsSpace).reverse

/-- JS String.prototype.trimStart. -/
def jsTrimStart (s : Str) : Str := s.dropWhile jsSpace

/-- JS String.prototype.toLowerCase restricted to ASCII letters (the engine
only compares against ASCII keyword lists). -/
def jsToLower (s : Str) : Str :=
  s.map fun c => if isAsciiLetter c && c.toNat ≤ 90 then Char.ofNat (c.toNat + 32) else c

/-- Group a text into maximal runs of characters of equal \w-class: adjacent
characters stay in one run exactly when both are word characters or both are
non-word characters. -/
def charRuns : Str → List Str
  | [] => []
  | c :: cs =>
    match charRuns cs with
    | [] => [[c]]
    | r :: rs =>
      match r with
      | [] => [c] :: r :: rs
      | d :: _ => if isWordChar c = isWordChar d then (c :: r) :: rs else [c] :: r :: rs

/-- A run that the identifier regex \b[A-Za-z_]\w*\b of
normalizeForDuplication matches: a word run whose first character is a
letter or underscore.  (A match of that regex must start at a word boundary
with a letter/underscore and, being greedy with a trailing boundary, covers
the whole maximal word run; word runs starting with a digit are untouched.) -/
def isIdentRun (r : Str) : Bool :=
  match r with
  | [] => false
  | c :: _ => isIdentStart c

/-- s.replace(/\b[A-Za-z_]\w*\b/g, 'id'): every maximal word run starting
with a letter or underscore is replaced by the placeholder id. -/
def replaceIdents (s : Str) : Str :=
  ((charRuns s).map fun r => if isIdentRun r then ['i', 'd'] else r).flatten

/-- s.replace(/\s+/g, ' '): collapse every maximal whitespace run to one space.
The flag records whether the previous character was whitespace. -/
def collapseSpaces : Bool → Str → Str
  | _, [] => []
  | inSp, c :: cs =>
    if jsSpace c then
      if inSp then collapseSpaces true cs else ' ' :: collapseSpaces true cs
    else c :: collapseSpaces false cs

/-- normalizeForDuplication from the source:
s.replace(/\b[A-Za-z_]\w*\b/g, 'id').replace(/\s+/g, ' ').trim(). -/
def normalizeForDuplication (s : Str) : Str :=
  jsTrim (collapseSpaces false (replaceIdents s))

/-- One inner step of the Levenshtein dynamic program (row i, columns 1..n):
given the character x = a[i-1], the remaining characters of b, the slice of
the previous row starting at the diagonal entry, and the cell to the left,
produce the cells dp[i][j] for the remaining columns.  Mirrors
dp[i][j] = min(dp[i-1][j] + 1, dp[i][j-1] + 1, dp[i-1][j-1] + cost). -/
def levCells (x : Char) : Str → List ℕ → ℕ → List ℕ
  | y :: ys, diag :: rest, left =>
    let above := match rest with | v :: _ => v | [] => 0
    let cell := min (above + 1) (min (left + 1) (diag + (if x = y then 0 else 1)))
    cell :: levCells x ys rest cell
  | _, _, _ => []

/-- Outer loop of the dynamic program: fold the characters of a over the rows,
starting each row i with dp[i][0] = i. -/
def levRows (bs : Str) : Str → ℕ → List ℕ → List ℕ
  | [], _, prev => prev
  | x :: xs, i, prev => levRows bs xs (i + 1) ((i + 1) :: levCells x bs prev (i + 1))

/-- levenshtein from the source (suffix TS added: Mathlib already declares a
levenshtein): fill the (m+1)x(n+1) table dp with
dp[i][0] = i, dp[0][j] = j and the three-way min recurrence, and return
dp[m][n] (the last entry of the last row). -/
def levenshteinTS (a b : Str) : ℕ :=
  ((levRows b a 0 (List.range (b.length + 1))).getLast?).getD 0

/-- Reference recurrence for the Levenshtein distance, recursing on the first
characters; dp[i][j] of the table equals this function on the prefixes
a[0..i), b[0..j) read from the right. -/
def levRec : Str → Str → ℕ
  | [], b => b.length
  | a, [] => a.length
  | x :: xs, y :: ys =>
    min (levRec xs (y :: ys) + 1)
      (min (levRec (x :: xs) ys + 1) (levRec xs ys + (if x = y then 0 else 1)))
termination_by a b => a.length + b.length
decreasing_by all_goals simp_arith

/-- textSimilarity from the source, with JS float arithmetic modelled by ℚ:
0 when a normalized text exceeds 1000 characters, 1 when both are empty,
otherwise 1 - dist / max(len, len). -/
def textSimilarity (a b : Str) : ℚ :=
  let na := normalizeForDuplication a
  let nb := normalizeForDuplication b
  if na.length > 1000 ∨ nb.length > 1000 then 0
  else if na.length = 0 ∧ nb.length = 0 then 1
  else 1 - (levenshteinTS na nb : ℚ) / (max na.length nb.length : ℚ)

/-- Generic regex-style scanner: the matcher m is tried at every position of
the text, receiving the preceding character (none at the start) for word
boundary and lookbehind-like checks; .test succeeds when any position
matches. -/
def scanText (m : Option Char → Str → Bool) : Option Char → Str → Bool
  | _, [] => false
  | prev, c :: cs => m prev (c :: cs) || scanText m (some c) cs

/-- Word boundary \b before a word character: the previous character is
absent or not a word character. -/
def boundaryBefore (prev : Option Char) : Bool :=
  match prev with
  | none => true
  | some p => !isWordChar p

/-- Word boundary \b after the end of a word: the next character is absent or
not a word character. -/
def boundaryAfterAt (cs : Str) : Bool :=
  match cs with
  | [] => true
  | c :: _ => !isWordChar c

/-- Matcher for /\bthis\.\w+\s*=/ at one position: literal this. then at
least one word character (greedy, up to the maximal run), optional
whitespace, then =. -/
def matchThisAssignAt (prev : Option Char) (cs : Str) : Bool :=
  boundaryBefore prev &&
  match cs with
  | 't' :: 'h' :: 'i' :: 's' :: '.' :: rest =>
    let w := rest.takeWhile isWordChar
    let tail := rest.dropWhile isWordChar
    !w.isEmpty &&
      (match tail.dropWhile jsSpace with
       | '=' :: _ => true
       | _ => false)
  | _ => false

/-- /\bthis\.\w+\s*=/.test(text). -/
def testThisAssign (text : Str) : Bool :=
  scanText matchThisAssignAt none text

/-- The word w occurs at this position followed by a word boundary. -/
def wordHere (w : Str) (cs : Str) : Bool :=
  listStartsWith cs w && boundaryAfterAt (cs.drop w.length)

/-- Matcher for /\bconsole\.(log|error|warn)\b/ at one position. -/
def matchConsoleAt (prev : Option Char) (cs : Str) : Bool :=
  boundaryBefore prev &&
  match cs with
  | 'c' :: 'o' :: 'n' :: 's' :: 'o' :: 'l' :: 'e' :: '.' :: rest =>
    wordHere ['l', 'o', 'g'] rest || wordHere ['e', 'r', 'r', 'o', 'r'] rest ||
      wordHere ['w', 'a', 'r', 'n'] rest
  | _ => false

/-- /\bconsole\.(log|error|warn)\b/.test(text). -/
def testConsole (text : Str) : Bool :=
  scanText matchConsoleAt none text

/-- The tail of the bare-assignment regex, ([+\-*/]?=), at one position:
an equals sign, optionally preceded by one arithmetic operator. -/
def opEqHere (cs : Str) : Bool :=
  match cs with
  | '=' :: _ => true
  | c :: '=' :: _ => c = '+' || c = '-' || c = '*' || c = '/'
  | _ => false

/-- Matcher for /(^|[^.])\b([A-Za-z_]\w*)\s*([+\-*/]?=)\s*/m at one position
of the identifier: with the m flag, ^ matches at the start of the text or
after a newline; the [^.] alternative consumes one character that is not a
dot and must be a non-word character for the following \b to hold (a newline
qualifies, so the after-newline case of ^ is subsumed).  Hence the
identifier must start a maximal word run whose preceding character, if any,
is a non-word character other than a dot; the greedy \w* covers the run and
is followed by optional whitespace and [+\-*/]?= (the trailing \s* always
matches). -/
def matchBareAssignAt (prev : Option Char) (cs : Str) : Bool :=
  (match prev with
   | none => true
   | some p => !isWordChar p && p ≠ '.') &&
  match cs with
  | c :: _ =>
    isIdentStart c && opEqHere ((cs.dropWhile isWordChar).dropWhile jsSpace)
  | [] => false

/-- /(^|[^.])\b([A-Za-z_]\w*)\s*([+\-*/]?=)\s*/m.test(text). -/
def testBareAssign (text : Str) : Bool :=
  scanText matchBareAssignAt none text

/-- Matcher for /\bnew\s+\w+/ at one position: the word new (the boundary
and the required following whitespace make the run exactly new), at least
one whitespace character, then at least one word character. -/
def matchNewAt (prev : Option Char) (cs : Str) : Bool :=
  boundaryBefore prev &&
  match cs with
  | 'n' :: 'e' :: 'w' :: rest =>
    (match rest with
     | c :: _ => jsSpace c
     | [] => false) &&
    (match rest.dropWhile jsSpace with
     | c :: _ => isWordChar c
     | [] => false)
  | _ => false

/-- /\bnew\s+\w+/.test(text). -/
def testNew (text : Str) : Bool :=
  scanText matchNewAt none text

/-- Matcher for /\bglobal\b|\bwindow\b|\bdocument\b/ at one position. -/
def matchGlobalsAt (prev : Option Char) (cs : Str) : Bool :=
  boundaryBefore prev &&
  (wordHere "global".data cs || wordHere "window".data cs || wordHere "document".data cs)

/-- /\bglobal\b|\bwindow\b|\bdocument\b/.test(text). -/
def testGlobals (text : Str) : Bool :=
  scanText matchGlobalsAt none text

/-- Matcher for /\bset\w+/ at one position: the letters set at a word
boundary followed by at least one word character. -/
def matchSetAt (prev : Option Char) (cs : Str) : Bool :=
  boundaryBefore prev &&
  match cs with
  | 's' :: 'e' :: 't' :: c :: _ => isWordChar c
  | _ => false

/-- /\bset\w+/.test(text). -/
def testSet (text : Str) : Bool :=
  scanText matchSetAt none text

/-- Counted control-flow descendants of one method or function body, the
result of the three getDescendantsOfKind queries the engine performs on the
external AST (IfStatement, ForStatement, WhileStatement). -/
structure BodyNode where
  ifCount : ℕ
  forCount : ℕ
  whileCount : ℕ
deriving DecidableEq, Repr

/-- A code unit as consumed by the engine: either a class declaration with
its method bodies (getBody() may be undefined, hence Option), or a function
declaration with its optional body.  nameOpt models getName(), which is
undefined for nameless declarations; text models getText(). -/
inductive CodeUnit where
  | cls (nameOpt : Option String) (text : Str) (methods : List (Option BodyNode))
  | fn (nameOpt : Option String) (text : Str) (body : Option BodyNode)
deriving DecidableEq, Repr

/-- getName() of a unit. -/
def CodeUnit.nameOpt : CodeUnit → Option String
  | .cls n _ _ => n
  | .fn n _ _ => n

/-- getText() of a unit. -/
def CodeUnit.text : CodeUnit → Str
  | .cls _ t _ => t
  | .fn _ t _ => t

/-- unit instanceof ClassDeclaration. -/
def CodeUnit.isClass : CodeUnit → Bool
  | .cls _ _ _ => true
  | .fn _ _ _ => false

/-- Contribution of one optional body to the complexity sum: the three
descendant counts when the body exists, nothing otherwise. -/
def bodyComplexity : Option BodyNode → ℕ
  | none => 0
  | some b => b.ifCount + b.forCount + b.whileCount

/-- Metrics record returned by computeMetrics. -/
structure Metrics where
  lineCount : ℕ
  methodCount : ℕ
  complexity : ℕ
deriving DecidableEq, Repr

/-- computeMetrics from the source: lineCount = text.split('\n').length;
for a class, methodCount = getMethods().length and complexity = 1 plus the
if/for/while descendant counts of every method body; for a function,
methodCount = 1 and complexity = 1 plus the counts of its body. -/
def computeMetrics (unit : CodeUnit) : Metrics :=
  let lineCount := (splitLines unit.text).length
  match unit with
  | .cls _ _ methods =>
    ⟨lineCount, methods.length, methods.foldl (fun acc m => acc + bodyComplexity m) 1⟩
  | .fn _ _ body =>
    ⟨lineCount, 1, 1 + bodyComplexity body⟩

/-- The indentation levels of the lines of a text: each line contributes
line.length - line.trimStart().length. -/
def indentLevels (text : Str) : List ℕ :=
  (splitLines text).map fun line => line.length - (jsTrimStart line).length

/-- Sum of the indentation levels (the reduce((a, b) => a + b, 0) step). -/
def indentSum (text : Str) : ℕ :=
  (indentLevels text).foldl (fun a b => a + b) 0

/-- Average leading-whitespace width over the lines of a text
(split('\n') never yields an empty list, so the denominator is positive). -/
def avgIndent (text : Str) : ℚ :=
  (indentSum text : ℚ) / ((indentLevels text).length : ℚ)

/-- Full-string test of /^[a-zA-Z][a-zA-Z0-9]*$/ : nonempty, a letter first,
letters and digits after (no underscore). -/
def testIdentName (s : String) : Bool :=
  match s.data with
  | [] => false
  | c :: cs => isAsciiLetter c && cs.all isAsciiAlnum

/-- evaluateReadability from the source: start at 100; -20 when the name
(getName() with undefined replaced by the empty string) fails
/^[a-zA-Z][a-zA-Z0-9]*$/; -10 when it is shorter than 3 characters; -20 when
it starts with a lowercase letter; -15 when the average indentation of the
text lines is below 2 or above 4; floor the result at 0. -/
def evaluateReadability (unit : CodeUnit) : ℤ :=
  let name := unit.nameOpt.getD ""
  let score : ℤ := 100
  let score := if ¬testIdentName name then score - 20 else score
  let score := if name.length < 3 then score - 10 else score
  let score :=
    if (match name.data with | c :: _ => isAsciiLower c | [] => false) then score - 20
    else score
  let score := if avgIndent unit.text < 2 ∨ avgIndent unit.text > 4 then score - 15 else score
  max 0 score

/-- The keyword table of identifyResponsibilities, in object-literal order. -/
def respKeywords : List (String × List String) :=
  [("data", ["data", "database", "query", "save", "load"]),
   ("ui", ["ui", "view", "render", "display", "button"]),
   ("business", ["business", "logic", "calculate", "process"]),
   ("validation", ["validate", "check", "error", "invalid"]),
   ("communication", ["email", "send", "http", "api", "network"])]

/-- identifyResponsibilities from the source: lowercase the unit text and
collect, in table order, every tag one of whose keywords occurs in it. -/
def identifyResponsibilities (unit : CodeUnit) : List String :=
  let text := jsToLower unit.text
  respKeywords.foldl
    (fun acc rw =>
      if rw.2.any (fun word => containsList text word.data) then acc ++ [rw.1] else acc)
    []

/-- The trimmed non-empty lines of a unit text, as used by hasDuplication. -/
def dupLines (unit : CodeUnit) : List Str :=
  ((splitLines unit.text).map jsTrim).filter fun l => l.length > 0

/-- hasDuplication from the source: true when the number of distinct trimmed
non-empty lines is below 0.8 times the number of such lines. -/
def hasDuplication (unit : CodeUnit) : Bool :=
  let lines := dupLines unit
  decide (((lines.dedup).length : ℚ) < (lines.length : ℚ) * (4 / 5))

/-- isTestable from the first engine variant: no object instantiation, no
global-like identifier, no console I/O, no bare identifier assignment. -/
def isTestable (unit : CodeUnit) : Bool :=
  let text := unit.text
  !testNew text && !testGlobals text && !testConsole text && !testBareAssign text

/-- hasSideEffects from the first engine variant: instance-field mutation,
console I/O, or bare identifier assignment. -/
def hasSideEffects (unit : CodeUnit) : Bool :=
  let text := unit.text
  testThisAssign text || testConsole text || testBareAssign text

/-- isTestable from the second engine variant (the duplicated function later
in the file): only object instantiation and global-like identifiers. -/
def isTestableV2 (unit : CodeUnit) : Bool :=
  let text := unit.text
  !testNew text && !testGlobals text

/-- hasSideEffects from the second engine variant: instance-field mutation
or an occurrence of /\bset\w+/. -/
def hasSideEffectsV2 (unit : CodeUnit) : Bool :=
  let text := unit.text
  testThisAssign text || testSet text

/-- unit.getName() || 'anonymous' : the graph key of a unit (undefined and
the empty string are both falsy in JS). -/
def keyOf (unit : CodeUnit) : String :=
  match unit.nameOpt with
  | some n => if n = "" then "anonymous" else n
  | none => "anonymous"

/-- The dependency list of one unit: for every other unit whose getName() is
truthy, differs from this unit's key and occurs as a substring of this
unit's text, push that name. -/
def depsFor (units : List CodeUnit) (unit : CodeUnit) : List String :=
  let name := keyOf unit
  units.foldl
    (fun acc other =>
      match other.nameOpt with
      | some otherName =>
        if otherName ≠ "" ∧ otherName ≠ name ∧ containsList unit.text otherName.data = true
        then acc ++ [otherName] else acc
      | none => acc)
    []

/-- Map.prototype.set on an insertion-ordered association list: replace the
value at an existing key in place, otherwise append the pair. -/
def setAssoc (g : List (String × List String)) (k : String) (v : List String) :
    List (String × List String) :=
  match g with
  | [] => [(k, v)]
  | (k', v') :: rest => if k' = k then (k, v) :: rest else (k', v') :: setAssoc rest k v

/-- Map.prototype.get as an association-list lookup (first match). -/
def getAssoc (g : List (String × List String)) (k : String) : Option (List String) :=
  match g with
  | [] => none
  | (k', v) :: rest => if k' = k then some v else getAssoc rest k

/-- buildDependencyGraph from the source: for each unit in order, set its
key to its dependency list in an insertion-ordered map. -/
def buildDependencyGraph (units : List CodeUnit) : List (String × List String) :=
  units.foldl (fun graph unit => setAssoc graph (keyOf unit) (depsFor units unit)) []

/-- State of the depth-first cycle search: the collected cycles, the visited
set, the recursion stack and the current path (the source shares one path
array across the traversal and resets it per root). -/
structure DfsState where
  cycles : List (List String)
  visited : List String
  recStack : List String
  path : List String
deriving Repr

/-- Body of the dfs closure of detectCycles, with explicit fuel for
termination (each non-returning call moves a node into visited, so any fuel
larger than the number of node names occurring in the graph is enough; the
fuel case never fires for the fuel detectCycles supplies).  On a node
already on the recursion stack, record path.slice(path.indexOf(node)); on a
visited node, return; otherwise mark, push, recurse into the neighbours
(graph.get(node) || []) and pop. -/
def dfs (graph : List (String × List String)) : ℕ → String → DfsState → DfsState
  | 0, _, s => s
  | fuel + 1, node, s =>
    if node ∈ s.recStack then
      { s with cycles := s.cycles ++ [s.path.drop (s.path.indexOf node)] }
    else if node ∈ s.visited then s
    else
      let s₁ : DfsState :=
        { s with visited := s.visited ++ [node], recStack := s.recStack ++ [node],
                 path := s.path ++ [node] }
      let s₂ := ((getAssoc graph node).getD []).foldl
        (fun st neighbor => dfs graph fuel neighbor st) s₁
      { s₂ with path := s₂.path.dropLast, recStack := s₂.recStack.erase node }

/-- Fuel that bounds the dfs recursion depth: every graph key and every
dependency name, plus one. -/
def dfsFuel (graph : List (String × List String)) : ℕ :=
  graph.length + (graph.map fun kv => kv.2.length).sum + 1

/-- detectCycles from the source: run dfs from every not-yet-visited key in
map order, starting each root with an empty path, and return the collected
cycles. -/
def detectCycles (graph : List (String × List String)) : List (List String) :=
  let finalState :=
    (graph.map Prod.fst).foldl
      (fun s node => if node ∈ s.visited then s else dfs graph (dfsFuel graph) node { s with path := [] })
      ⟨[], [], [], []⟩
  finalState.cycles

/-- One reported finding: the stable diagnostic code and the human-readable
message (ranges and severities are supplied by the editor adapter and carry
no analysis content). -/
structure Finding where
  code : String
  message : String
deriving DecidableEq, Repr

/-- Join a list of strings with a separator (Array.prototype.join). -/
def joinSep (sep : String) : List String → String
  | [] => ""
  | [x] => x
  | x :: y :: rest => x ++ sep ++ joinSep sep (y :: rest)

/-- The findings one unit contributes, in the push order of the analysis
loop: readability, size, complexity, god class, SRP, intra-unit
duplication, testability, side effects, each guarded by its threshold. -/
def unitFindings (unit : CodeUnit) : List Finding :=
  let readabilityScore := evaluateReadability unit
  let metrics := computeMetrics unit
  let responsibilities := identifyResponsibilities unit
  (if readabilityScore < 90 then
    [⟨"clean-code-assistant.readability",
      "Poor readability: Use meaningful names, consistent formatting. Score: " ++
        toString readabilityScore ++ "/100"⟩]
   else []) ++
  (if metrics.lineCount > 15 then
    [⟨"clean-code-assistant.size",
      "Large function: " ++ toString metrics.lineCount ++
        " lines. Consider breaking into smaller functions."⟩]
   else []) ++
  (if metrics.complexity > 8 then
    [⟨"clean-code-assistant.complexity",
      "High complexity: Cyclomatic " ++ toString metrics.complexity ++
        ". Refactor into smaller functions or use a strategy pattern."⟩]
   else []) ++
  (if unit.isClass = true ∧ metrics.methodCount > 10 then
    [⟨"clean-code-assistant.god-class",
      "God class: " ++ toString metrics.methodCount ++ " methods. Possible SRP violation."⟩]
   else []) ++
  (if responsibilities.length > 1 then
    [⟨"clean-code-assistant.srp",
      "SRP Violation: Unit handles multiple concerns - " ++ joinSep ", " responsibilities ++
        ". Split into separate units."⟩]
   else []) ++
  (if hasDuplication unit = true then
    [⟨"clean-code-assistant.duplication", "Code duplication detected. Extract to shared method."⟩]
   else []) ++
  (if isTestable unit = false then
    [⟨"clean-code-assistant.testability", "Code not easily testable (tight coupling, globals)."⟩]
   else []) ++
  (if hasSideEffects unit = true then
    [⟨"clean-code-assistant.side-effects", "Unexpected side effects."⟩]
   else [])

/-- The document-level finding for one detected cycle. -/
def cycleFinding (cycle : List String) : Finding :=
  ⟨"clean-code-assistant.dependency-cycle",
   "Dependency cycle detected: " ++ joinSep " -> " cycle ++ ". Refactor to break loops."⟩

/-- All ordered pairs (i, j) with i < j of a list, in the nested-loop order
of the cross-unit duplication pass. -/
def orderedPairs : List CodeUnit → List (CodeUnit × CodeUnit)
  | [] => []
  | a :: rest => (rest.map fun b => (a, b)) ++ orderedPairs rest

/-- The findings of one cross-unit comparison: when the similarity exceeds
0.6, one duplication finding per unit, each naming the other unit. -/
def pairFindings (p : CodeUnit × CodeUnit) : List Finding :=
  if textSimilarity p.1.text p.2.text > 3 / 5 then
    [⟨"clean-code-assistant.duplication",
      "Code duplication: Similar logic to function " ++ (p.2.nameOpt.getD "anonymous") ++ "."⟩,
     ⟨"clean-code-assistant.duplication",
      "Code duplication: Similar logic to function " ++ (p.1.nameOpt.getD "anonymous") ++ "."⟩]
  else []

/-- analyzeDocument from the source, reduced to its analysis content: the
units are the classes followed by the functions of the parsed file; one
pass pushes each unit's findings in loop order, then one finding per
detected dependency cycle, then the cross-unit duplication findings of the
pairwise similarity pass over the functions. -/
def analyzeFindings (classes functions : List CodeUnit) : List Finding :=
  let units := classes ++ functions
  let diagnostics := units.foldl (fun acc unit => acc ++ unitFindings unit) []
  let graph := buildDependencyGraph units
  let cycles := detectCycles graph
  let diagnostics := cycles.foldl (fun acc cycle => acc ++ [cycleFinding cycle]) diagnostics
  (orderedPairs functions).foldl (fun acc p => acc ++ pairFindings p) diagnostics

/-- Levenshtein distance on prefixes, defined by reading both strings from
the right; the table entry dp[i][j] of the source equals levP on the
prefixes a[0..i), b[0..j). -/
def levP (a b : Str) : ℕ :=
  levRec a.reverse b.reverse

/-- The entries dp[i][j..n] of the row for prefix A strictly after column
|u|, phrased over the remaining characters bs of b with accumulated prefix
u. -/
def rowRest (A : Str) : Str → Str → List ℕ
  | _, [] => []
  | u, y :: ys => levP A (u ++ [y]) :: rowRest A (u ++ [y]) ys

/-- Two runs are exchangeable under identifier renaming: both are
identifier runs, or they are equal. -/
def pieceRel (r s : Str) : Bool :=
  (isIdentRun r && isIdentRun s) || r == s

/-- Pointwise pieceRel over two run lists of equal length. -/
def piecesRel : List Str → List Str → Bool
  | [], [] => true
  | r :: rs, s :: ss => pieceRel r s && piecesRel rs ss
  | _, _ => false

/-- Two texts are identical except for their identifier names: their
maximal-run decompositions match piecewise, differing at most in
identifier runs. -/
def renamedOnly (a b : Str) : Bool :=
  piecesRel (charRuns a) (charRuns b)

/-- The fixed per-unit rule-code order of the analysis loop. -/
def ruleCodeOrder : List String :=
  ["clean-code-assistant.readability", "clean-code-assistant.size",
   "clean-code-assistant.complexity", "clean-code-assistant.god-class",
   "clean-code-assistant.srp", "clean-code-assistant.duplication",
   "clean-code-assistant.testability", "clean-code-assistant.side-effects"]

/-- A name is the target of an edge of the graph. -/
def isTarget (g : List (String × List String)) (d : String) : Prop :=
  ∃ k deps, (k, deps) ∈ g ∧ d ∈ deps

/-- Mutually referring functions foo and bar (inputs of the C1 theorems). -/
def fnFoo : CodeUnit := .fn (some "foo") "function foo()\x7bbar()\x7d".data none

def fnBar : CodeUnit := .fn (some "bar") "function bar()\x7bfoo()\x7d".data none

/-- Concrete units used as inputs of counterexamples and witnesses. -/
def fnXAssign : CodeUnit := .fn (some "f") "x = 1".data none

def fnThisAssign : CodeUnit := .fn (some "g") "this.x = 1".data none

def fnNamedA : CodeUnit := .fn (some "a") "function a()\x7b\nreturn 1;\n\x7d".data none

def fnTwoLines : CodeUnit := .fn (some "h") "a\nb".data none

/-- Claim C7: for every unit, evaluateReadability returns an integer in
[0, 100]: the score starts at 100, only fixed penalties are subtracted, and
the result is floored at 0. -/
theorem claim_C7 (unit : CodeUnit) :
    0 ≤ evaluateReadability unit ∧ evaluateReadability unit ≤ 100 := by
  simp only [evaluateReadability]
  split_ifs <;> exact ⟨le_max_left 0 _, max_le (by norm_num) (by norm_num)⟩

/-- Claim C3 (amended): the two duplicated hasSideEffects variants agree on
the instance-field-mutation component: any unit whose text matches
/\bthis\.\w+\s*=/ is flagged by both; beyond that they diverge (the first
also flags console I/O and bare identifier assignments, the second instead
flags any /\bset\w+/ occurrence). -/
theorem claim_C3 (unit : CodeUnit) (h : testThisAssign unit.text = true) :
    hasSideEffects unit = true ∧ hasSideEffectsV2 unit = true := by
  constructor <;> simp [hasSideEffects, hasSideEffectsV2, h]

/-- Claim C3 counterexample: on the unit text x = 1 the first variant
reports a side effect (bare identifier assignment) and the second does not,
so the two predicates are not equal. -/
theorem claim_C3_counterexample :
    hasSideEffects fnXAssign = true ∧ hasSideEffectsV2 fnXAssign = false := by
  decide

theorem claim_C3_witness :
    hasSideEffects fnThisAssign = true ∧ hasSideEffectsV2 fnThisAssign = true :=
  claim_C3 fnThisAssign (by decide)

/-- Claim C2 (amended): for a unit named a with average indentation outside
[2, 4], only three penalties apply: the name a matches
/^[a-zA-Z][a-zA-Z0-9]*$/ so the -20 regex penalty is not taken, and the
score is exactly 100 - 10 - 20 - 15 = 55; a readability finding is still
emitted since 55 < 90. -/
theorem claim_C2 (unit : CodeUnit) (hname : unit.nameOpt = some "a")
    (hindent : avgIndent unit.text < 2 ∨ avgIndent unit.text > 4) :
    evaluateReadability unit = 55 ∧
      ∃ f ∈ unitFindings unit, f.code = "clean-code-assistant.readability" := by
  have hscore : evaluateReadability unit = 55 := by
    simp only [evaluateReadability, hname, Option.getD_some]
    rw [if_pos hindent]
    decide
  refine ⟨hscore, ?_⟩
  refine ⟨⟨"clean-code-assistant.readability",
      "Poor readability: Use meaningful names, consistent formatting. Score: " ++
        toString (55 : ℤ) ++ "/100"⟩, ?_, rfl⟩
  simp only [unitFindings, hscore]
  rw [if_pos (show (55 : ℤ) < 90 by norm_num)]
  exact List.mem_append_left _ (List.mem_append_left _ (List.mem_append_left _
    (List.mem_append_left _ (List.mem_append_left _ (List.mem_append_left _
      (List.mem_append_left _ (List.mem_singleton_self _)))))))

/-- Claim C2 counterexample: the function named a with body lines of zero
indentation satisfies the hypotheses of the claim (name a, average
indentation 0 outside [2, 4]), yet its readability score is 55, not at most
35: the -20 penalty for failing /^[a-zA-Z][a-zA-Z0-9]*$/ is not applied
because a matches that pattern. -/
theorem claim_C2_counterexample :
    fnNamedA.nameOpt = some "a" ∧ avgIndent fnNamedA.text < 2 ∧
      evaluateReadability fnNamedA = 55 ∧ ¬evaluateReadability fnNamedA ≤ 35 := by
  have havg : avgIndent fnNamedA.text < 2 := by
    have h1 : indentSum fnNamedA.text = 0 := by decide
    have h2 : (indentLevels fnNamedA.text).length = 3 := by decide
    rw [avgIndent, h1, h2]
    norm_num
  have hscore : evaluateReadability fnNamedA = 55 := by
    simp only [evaluateReadability, show fnNamedA.nameOpt = some "a" from rfl, Option.getD_some]
    rw [if_pos (Or.inl havg)]
    decide
  exact ⟨rfl, havg, hscore, by rw [hscore]; norm_num⟩

theorem claim_C2_witness :
    evaluateReadability fnNamedA = 55 ∧
      ∃ f ∈ unitFindings fnNamedA, f.code = "clean-code-assistant.readability" := by
  have havg : avgIndent fnNamedA.text < 2 := by
    have h1 : indentSum fnNamedA.text = 0 := by decide
    have h2 : (indentLevels fnNamedA.text).length = 3 := by decide
    rw [avgIndent, h1, h2]
    norm_num
  exact claim_C2 fnNamedA rfl (Or.inl havg)

/-- Claim C8: hasDuplication flags a unit exactly when its trimmed non-empty
lines are non-empty in number and the ratio of distinct lines to total lines
is strictly below 0.8; in particular a unit whose trimmed non-empty lines
are all distinct is never flagged. -/
theorem claim_C8 (unit : CodeUnit) :
    (hasDuplication unit = true ↔
      (dupLines unit).length ≠ 0 ∧
        (((dupLines unit).dedup.length : ℚ) / ((dupLines unit).length : ℚ) < 4 / 5)) ∧
    ((dupLines unit).Nodup → hasDuplication unit = false) := by
  have hkn : (dupLines unit).dedup.length ≤ (dupLines unit).length :=
    (List.dedup_sublist _).length_le
  constructor
  · rw [hasDuplication, decide_eq_true_iff]
    constructor
    · intro h
      have hn : (dupLines unit).length ≠ 0 := by
        intro h0
        have hd0 : (dupLines unit).dedup.length = 0 := by omega
        rw [h0, hd0] at h
        norm_num at h
      refine ⟨hn, ?_⟩
      have hpos : (0 : ℚ) < ((dupLines unit).length : ℚ) := by
        exact_mod_cast Nat.pos_of_ne_zero hn
      rw [div_lt_iff₀ hpos]
      linarith [h]
    · rintro ⟨hn, h⟩
      have hpos : (0 : ℚ) < ((dupLines unit).length : ℚ) := by
        exact_mod_cast Nat.pos_of_ne_zero hn
      rw [div_lt_iff₀ hpos] at h
      linarith [h]
  · intro hnodup
    rw [hasDuplication, decide_eq_false_iff_not]
    rw [List.dedup_eq_self.mpr hnodup]
    intro h
    have : (0 : ℚ) ≤ ((dupLines unit).length : ℚ) := by positivity
    linarith

theorem claim_C8_witness : hasDuplication fnTwoLines = false :=
  (claim_C8 fnTwoLines).2 (by decide)

theorem levRec_nil_left (b : Str) : levRec [] b = b.length := by
  simp [levRec]

theorem levRec_nil_right (a : Str) : levRec a [] = a.length := by
  cases a <;> simp [levRec]

theorem levRec_cons_cons (x y : Char) (xs ys : Str) :
    levRec (x :: xs) (y :: ys) =
      min (levRec xs (y :: ys) + 1)
        (min (levRec (x :: xs) ys + 1) (levRec xs ys + (if x = y then 0 else 1))) := by
  rw [levRec]

/-- The Levenshtein recurrence is symmetric in its two arguments. -/
theorem levRec_comm (a : Str) : ∀ b, levRec a b = levRec b a := by
  induction a with
  | nil => intro b; rw [levRec_nil_left, levRec_nil_right]
  | cons x xs ih =>
    intro b
    induction b with
    | nil => rw [levRec_nil_left, levRec_nil_right]
    | cons y ys ihb =>
      rw [levRec_cons_cons, levRec_cons_cons, ih (y :: ys), ihb, ih ys]
      have hc : (if x = y then 0 else 1) = (if y = x then 0 else 1) := by
        by_cases h : x = y
        · simp [h]
        · simp [h, Ne.symm h]
      rw [hc]
      exact min_left_comm _ _ _

/-- The Levenshtein recurrence vanishes on equal arguments. -/
theorem levRec_self (a : Str) : levRec a a = 0 := by
  induction a with
  | nil => rw [levRec_nil_left]; rfl
  | cons x xs ih =>
    rw [levRec_cons_cons, if_pos rfl, ih]
    omega

/-- The Levenshtein recurrence is bounded by the longer length. -/
theorem levRec_le_max (a : Str) : ∀ b, levRec a b ≤ max a.length b.length := by
  induction a with
  | nil => intro b; rw [levRec_nil_left]; exact le_max_right _ _
  | cons x xs ih =>
    intro b
    induction b with
    | nil => rw [levRec_nil_right]; exact le_max_left _ _
    | cons y ys ihb =>
      rw [levRec_cons_cons]
      have h3 : levRec xs ys ≤ max xs.length ys.length := ih ys
      have hc : (if x = y then 0 else 1) ≤ 1 := by split <;> omega
      have := min_le_right (levRec xs (y :: ys) + 1)
        (min (levRec (x :: xs) ys + 1) (levRec xs ys + (if x = y then 0 else 1)))
      have := min_le_right (levRec (x :: xs) ys + 1)
        (levRec xs ys + (if x = y then 0 else 1))
      simp only [List.length_cons]
      omega

theorem levP_nil_right (a : Str) : levP a [] = a.length := by
  simp [levP, levRec_nil_right]

/-- The snoc recurrence for levP, definitionally inherited from the cons
recurrence of levRec through reversal; this is the recurrence the source
table satisfies at dp[i][j] for i, j ≥ 1. -/
theorem levP_snoc_snoc (a b : Str) (x y : Char) :
    levP (a ++ [x]) (b ++ [y]) =
      min (levP a (b ++ [y]) + 1)
        (min (levP (a ++ [x]) b + 1) (levP a b + (if x = y then 0 else 1))) := by
  simp only [levP, List.reverse_append, List.reverse_cons, List.reverse_nil,
    List.nil_append, List.cons_append, List.singleton_append]
  rw [levRec_cons_cons]

/-- Correctness of one inner loop pass: starting from the previous row slice
at the diagonal and the freshly written left cell, levCells computes the row
entries of the extended prefix A ++ [x] beyond column |u|. -/
theorem levCells_spec (x : Char) (A : Str) :
    ∀ (bs u : Str),
      levCells x bs (levP A u :: rowRest A u bs) (levP (A ++ [x]) u) =
        rowRest (A ++ [x]) u bs := by
  intro bs
  induction bs with
  | nil => intro u; rfl
  | cons y ys ih =>
    intro u
    simp only [rowRest, levCells]
    rw [← levP_snoc_snoc A u x y, ih (u ++ [y])]

/-- Correctness of the outer loop: processing the remaining characters xs
after a prefix A transforms the row of A into the row of A ++ xs. -/
theorem levRows_spec (bs : Str) :
    ∀ (xs A : Str),
      levRows bs xs A.length (levP A [] :: rowRest A [] bs) =
        levP (A ++ xs) [] :: rowRest (A ++ xs) [] bs := by
  intro xs
  induction xs with
  | nil => intro A; simp [levRows]
  | cons x xs ih =>
    intro A
    rw [levRows]
    have hlen : A.length + 1 = (A ++ [x]).length := by simp
    have hleft : A.length + 1 = levP (A ++ [x]) [] := by
      rw [levP_nil_right]; simp
    rw [hleft, levCells_spec x A bs []]
    have : levP (A ++ [x]) [] :: rowRest (A ++ [x]) [] bs =
        levP (A ++ [x]) [] :: rowRest (A ++ [x]) [] bs := rfl
    rw [show levP (A ++ [x]) [] = (A ++ [x]).length from levP_nil_right _] at this ⊢
    rw [show (A ++ [x]).length = A.length + 1 by simp] at this ⊢
    have h2 := ih (A ++ [x])
    rw [show (A ++ [x]).length = A.length + 1 by simp] at h2
    rw [show levP (A ++ [x]) [] = A.length + 1 by rw [levP_nil_right]; simp] at h2
    rw [h2, List.append_assoc]
    rfl

theorem rowRest_nil_left (bs : Str) :
    ∀ u : Str, rowRest [] u bs = (List.range bs.length).map (fun j => u.length + j + 1) := by
  induction bs with
  | nil => intro u; rfl
  | cons y ys ih =>
    intro u
    rw [rowRest, List.length_cons, List.range_succ_eq_map, List.map_cons, List.map_map]
    congr 1
    · simp [levP, levRec_nil_left]
    · rw [ih (u ++ [y])]
      refine List.map_congr_left fun j _ => ?_
      simp
      omega

/-- The initial row List.range (n + 1) is the row of the empty prefix. -/
theorem range_eq_row (bs : Str) :
    List.range (bs.length + 1) = levP [] [] :: rowRest [] [] bs := by
  rw [List.range_succ_eq_map, rowRest_nil_left]
  congr 1
  · simp [levP, levRec_nil_left]
  · refine List.map_congr_left fun j _ => ?_
    simp

theorem rowRest_getLast (A : Str) :
    ∀ (bs u : Str), (levP A u :: rowRest A u bs).getLast? = some (levP A (u ++ bs)) := by
  intro bs
  induction bs with
  | nil => intro u; simp [rowRest]
  | cons y ys ih =>
    intro u
    rw [rowRest, List.getLast?_cons_cons, ih (u ++ [y]), List.append_assoc]
    rfl

/-- The dynamic program of the source computes levP on the full strings. -/
theorem levenshteinTS_eq_levP (a b : Str) : levenshteinTS a b = levP a b := by
  rw [levenshteinTS, range_eq_row]
  have h := levRows_spec b a []
  simp only [List.length_nil, List.nil_append] at h
  rw [h, rowRest_getLast a b []]
  rfl

theorem levenshteinTS_comm (a b : Str) : levenshteinTS a b = levenshteinTS b a := by
  rw [levenshteinTS_eq_levP, levenshteinTS_eq_levP, levP, levP, levRec_comm]

theorem levenshteinTS_self (a : Str) : levenshteinTS a a = 0 := by
  rw [levenshteinTS_eq_levP, levP, levRec_self]

theorem levenshteinTS_le_max (a b : Str) :
    levenshteinTS a b ≤ max a.length b.length := by
  rw [levenshteinTS_eq_levP, levP]
  have h := levRec_le_max a.reverse b.reverse
  simpa using h

/-- Claim C6: textSimilarity is symmetric in its two arguments, including
under the length cap and the both-empty special case. -/
theorem claim_C6 (a b : Str) : textSimilarity a b = textSimilarity b a := by
  simp only [textSimilarity]
  rw [levenshteinTS_comm (normalizeForDuplication a) (normalizeForDuplication b),
    max_comm (((normalizeForDuplication a).length : ℚ)) (((normalizeForDuplication b).length : ℚ))]
  exact if_congr or_comm rfl (if_congr and_comm rfl rfl)

/-- Claim C9: textSimilarity always lies in [0, 1]: outside the cap and
both-empty branches the distance between the normalized strings is at most
the longer length, which is positive. -/
theorem claim_C9 (a b : Str) : 0 ≤ textSimilarity a b ∧ textSimilarity a b ≤ 1 := by
  simp only [textSimilarity]
  split_ifs with h1 h2
  · norm_num
  · norm_num
  · have hd := levenshteinTS_le_max (normalizeForDuplication a) (normalizeForDuplication b)
    set na := normalizeForDuplication a with hna
    set nb := normalizeForDuplication b with hnb
    have hm : 0 < max na.length nb.length := by
      push_neg at h2
      by_cases hz : na.length = 0
      · have := h2 hz
        omega
      · omega
    have hmq : (0 : ℚ) < (max na.length nb.length : ℚ) := by exact_mod_cast hm
    have hdq : (levenshteinTS na nb : ℚ) ≤ (max na.length nb.length : ℚ) := by
      exact_mod_cast hd
    have hfrac0 : (0 : ℚ) ≤ (levenshteinTS na nb : ℚ) / (max na.length nb.length : ℚ) :=
      div_nonneg (by positivity) (le_of_lt hmq)
    have hfrac1 : (levenshteinTS na nb : ℚ) / (max na.length nb.length : ℚ) ≤ 1 :=
      (div_le_one hmq).mpr hdq
    constructor <;> linarith

/-- Renaming-equivalent run lists map to the same normalized pieces. -/
theorem map_norm_eq_of_piecesRel :
    ∀ rs ss : List Str, piecesRel rs ss = true →
      (rs.map fun r => if isIdentRun r then ['i', 'd'] else r) =
        (ss.map fun r => if isIdentRun r then ['i', 'd'] else r) := by
  intro rs
  induction rs with
  | nil => intro ss h; cases ss with
    | nil => rfl
    | cons s ss => simp [piecesRel] at h
  | cons r rs ih =>
    intro ss h
    cases ss with
    | nil => simp [piecesRel] at h
    | cons s ss =>
      simp only [piecesRel, Bool.and_eq_true] at h
      obtain ⟨hp, hrest⟩ := h
      simp only [List.map_cons]
      rw [ih ss hrest]
      congr 1
      simp only [pieceRel, Bool.or_eq_true, Bool.and_eq_true, beq_iff_eq] at hp
      rcases hp with ⟨h1, h2⟩ | h3
      · rw [if_pos h1, if_pos h2]
      · rw [h3]

/-- Claim C5: two texts that are identical except for their identifier
names have equal normalized forms, so textSimilarity is exactly 1 (distance
0), except that the length cap returns 0 when a normalized string exceeds
1000 characters. -/
theorem claim_C5 (a b : Str) (h : renamedOnly a b = true) :
    textSimilarity a b =
      if (normalizeForDuplication a).length > 1000 ∨ (normalizeForDuplication b).length > 1000
      then 0 else 1 := by
  have hn : normalizeForDuplication a = normalizeForDuplication b := by
    unfold normalizeForDuplication replaceIdents
    rw [map_norm_eq_of_piecesRel (charRuns a) (charRuns b) h]
  simp only [textSimilarity, hn]
  split_ifs with h1 h2
  · rfl
  · rfl
  · rw [levenshteinTS_self]
    simp

theorem claim_C5_witness : textSimilarity "ab c".data "xy c".data = 1 := by
  rw [claim_C5 "ab c".data "xy c".data (by decide)]
  rw [if_neg]
  push_neg
  constructor <;> decide

theorem flatten_map_singleton {α β : Type} (f : α → β) :
    ∀ l : List α, (l.map fun x => [f x]).flatten = l.map f := by
  intro l
  induction l with
  | nil => rfl
  | cons x xs ih => simp [ih]

theorem foldl_append_eq {α β : Type} (f : α → List β) :
    ∀ (l : List α) (init : List β),
      l.foldl (fun acc x => acc ++ f x) init = init ++ (l.map f).flatten := by
  intro l
  induction l with
  | nil => intro init; simp
  | cons x xs ih =>
    intro init
    rw [List.foldl_cons, ih (init ++ f x)]
    simp

theorem code_sublist_helper (c : Prop) [Decidable c] (f : Finding)
    (rest : List Finding) (code : String) (L : List String) (hc : f.code = code)
    (hs : (rest.map Finding.code).Sublist L) :
    (((if c then [f] else []) ++ rest).map Finding.code).Sublist (code :: L) := by
  split
  · rw [List.singleton_append, List.map_cons, hc]
    exact hs.cons₂ code
  · rw [List.nil_append]
    exact hs.cons code

theorem code_sublist_single (c : Prop) [Decidable c] (f : Finding) (code : String)
    (hc : f.code = code) : ((if c then [f] else []).map Finding.code).Sublist [code] := by
  split
  · simp [hc]
  · simp

/-- Claim C4: one analysis pass produces, for each unit in document order
(classes then functions), that unit's findings in the fixed rule order
readability, size, complexity, god class, SRP, intra-unit duplication,
testability, side effects; all dependency-cycle findings follow the unit
findings, and the cross-unit duplication findings come last. -/
theorem claim_C4 (classes functions : List CodeUnit) :
    analyzeFindings classes functions =
      (((classes ++ functions).map unitFindings).flatten ++
          (detectCycles (buildDependencyGraph (classes ++ functions))).map cycleFinding) ++
        ((orderedPairs functions).map pairFindings).flatten ∧
      ∀ unit : CodeUnit, ((unitFindings unit).map Finding.code).Sublist ruleCodeOrder := by
  constructor
  · simp only [analyzeFindings]
    rw [foldl_append_eq unitFindings (classes ++ functions) []]
    rw [foldl_append_eq (fun cycle => [cycleFinding cycle])
      (detectCycles (buildDependencyGraph (classes ++ functions)))]
    rw [foldl_append_eq pairFindings (orderedPairs functions)]
    simp [flatten_map_singleton]
  · intro unit
    simp only [unitFindings, List.append_assoc, ruleCodeOrder]
    refine code_sublist_helper _ _ _ _ _ rfl ?_
    refine code_sublist_helper _ _ _ _ _ rfl ?_
    refine code_sublist_helper _ _ _ _ _ rfl ?_
    refine code_sublist_helper _ _ _ _ _ rfl ?_
    refine code_sublist_helper _ _ _ _ _ rfl ?_
    refine code_sublist_helper _ _ _ _ _ rfl ?_
    refine code_sublist_helper _ _ _ _ _ rfl ?_
    exact code_sublist_single _ _ _ rfl

theorem filter_if_singleton (p : Finding → Bool) (c : Prop) [Decidable c] (f : Finding)
    (rest : List Finding) (hp : p f = false) :
    ((if c then [f] else []) ++ rest).filter p = rest.filter p := by
  split <;> simp [hp]

/-- No per-unit finding carries the dependency-cycle code. -/
theorem unitFindings_filter_cycle (u : CodeUnit) :
    (unitFindings u).filter (fun f => f.code == "clean-code-assistant.dependency-cycle") = [] := by
  simp only [unitFindings, List.append_assoc]
  rw [filter_if_singleton _ _ _ _ (by rfl)]
  rw [filter_if_singleton _ _ _ _ (by rfl)]
  rw [filter_if_singleton _ _ _ _ (by rfl)]
  rw [filter_if_singleton _ _ _ _ (by rfl)]
  rw [filter_if_singleton _ _ _ _ (by rfl)]
  rw [filter_if_singleton _ _ _ _ (by rfl)]
  rw [filter_if_singleton _ _ _ _ (by rfl)]
  split <;> rfl

/-- No cross-unit duplication finding carries the dependency-cycle code. -/
theorem pairFindings_filter_cycle (p : CodeUnit × CodeUnit) :
    (pairFindings p).filter (fun g => g.code == "clean-code-assistant.dependency-cycle") = [] := by
  unfold pairFindings
  split <;> simp

/-- For two functions foo and bar whose texts contain each other's name,
the graph is foo -> bar -> foo, the DFS from root foo records the path
slice [foo, bar], and the single dependency-cycle finding reports
foo -> bar (the revisited node is not appended again). -/
theorem cycleReport_foo_bar (t1 t2 : Str) (b1 b2 : Option BodyNode)
    (h1 : containsList t1 "bar".data = true) (h2 : containsList t2 "foo".data = true) :
    detectCycles (buildDependencyGraph
        [CodeUnit.fn (some "foo") t1 b1, CodeUnit.fn (some "bar") t2 b2]) = [["foo", "bar"]] ∧
    ((analyzeFindings [] [CodeUnit.fn (some "foo") t1 b1, CodeUnit.fn (some "bar") t2 b2]).filter
        (fun f => f.code == "clean-code-assistant.dependency-cycle")).map Finding.message =
      ["Dependency cycle detected: foo -> bar. Refactor to break loops."] := by
  have hgraph : buildDependencyGraph
      [CodeUnit.fn (some "foo") t1 b1, CodeUnit.fn (some "bar") t2 b2] =
      [("foo", ["bar"]), ("bar", ["foo"])] := by
    simp [buildDependencyGraph, depsFor, keyOf, setAssoc, CodeUnit.nameOpt, CodeUnit.text, h1, h2]
  have hcycles : detectCycles [("foo", ["bar"]), ("bar", ["foo"])] = [["foo", "bar"]] := by decide
  refine ⟨by rw [hgraph, hcycles], ?_⟩
  simp only [analyzeFindings, List.nil_append]
  rw [hgraph, hcycles]
  rw [foldl_append_eq unitFindings _ []]
  rw [foldl_append_eq (fun cycle => [cycleFinding cycle]) [["foo", "bar"]]]
  rw [foldl_append_eq pairFindings]
  simp only [List.map_cons, List.map_nil, List.flatten_cons, List.flatten_nil,
    List.nil_append, List.append_nil, orderedPairs]
  rw [List.filter_append, List.filter_append, List.filter_append,
    unitFindings_filter_cycle, unitFindings_filter_cycle, pairFindings_filter_cycle]
  rfl

/-- Claim C1 (amended): for a document with exactly the two top-level
functions foo and bar whose texts contain each other's name, the analysis
emits exactly one dependency-cycle finding, and its message reports the
cycle as foo -> bar (the slice of the DFS path from the first occurrence of
the revisited node; the starting node is not repeated at the end). -/
theorem claim_C1 (t1 t2 : Str) (b1 b2 : Option BodyNode)
    (h1 : containsList t1 "bar".data = true) (h2 : containsList t2 "foo".data = true) :
    detectCycles (buildDependencyGraph
        [CodeUnit.fn (some "foo") t1 b1, CodeUnit.fn (some "bar") t2 b2]) = [["foo", "bar"]] ∧
    ((analyzeFindings [] [CodeUnit.fn (some "foo") t1 b1, CodeUnit.fn (some "bar") t2 b2]).filter
        (fun f => f.code == "clean-code-assistant.dependency-cycle")).map Finding.message =
      ["Dependency cycle detected: foo -> bar. Refactor to break loops."] :=
  cycleReport_foo_bar t1 t2 b1 b2 h1 h2

/-- Claim C1 counterexample: for the concrete mutually referring functions
foo and bar, the only dependency-cycle message is
Dependency cycle detected: foo -> bar. Refactor to break loops., and it
contains neither foo -> bar -> foo nor bar -> foo -> bar, refuting the
claimed arrow-joined sequence. -/
theorem claim_C1_counterexample :
    ((analyzeFindings [] [fnFoo, fnBar]).filter
        (fun f => f.code == "clean-code-assistant.dependency-cycle")).map Finding.message =
      ["Dependency cycle detected: foo -> bar. Refactor to break loops."] ∧
    containsList "Dependency cycle detected: foo -> bar. Refactor to break loops.".data
        "foo -> bar -> foo".data = false ∧
    containsList "Dependency cycle detected: foo -> bar. Refactor to break loops.".data
        "bar -> foo -> bar".data = false := by
  refine ⟨(cycleReport_foo_bar _ _ none none (by decide) (by decide)).2, by decide, by decide⟩

theorem claim_C1_witness :
    detectCycles (buildDependencyGraph [fnFoo, fnBar]) = [["foo", "bar"]] ∧
    ((analyzeFindings [] [fnFoo, fnBar]).filter
        (fun f => f.code == "clean-code-assistant.dependency-cycle")).map Finding.message =
      ["Dependency cycle detected: foo -> bar. Refactor to break loops."] :=
  claim_C1 "function foo()\x7bbar()\x7d".data "function bar()\x7bfoo()\x7d".data none none
    (by decide) (by decide)

theorem getAssoc_mem {g : List (String × List String)} {k : String} {v : List String} :
    getAssoc g k = some v → (k, v) ∈ g := by
  induction g with
  | nil => intro h; simp [getAssoc] at h
  | cons p rest ih =>
    obtain ⟨k', v'⟩ := p
    intro h
    rw [getAssoc] at h
    split at h
    · next heq =>
      obtain rfl := Option.some.inj h
      subst heq
      exact List.mem_cons_self _ _
    · exact List.mem_cons_of_mem _ (ih h)

theorem mem_setAssoc {g : List (String × List String)} {k k' : String} {v v' : List String} :
    (k', v') ∈ setAssoc g k v → (k', v') = (k, v) ∨ (k', v') ∈ g := by
  induction g with
  | nil => intro h; simp [setAssoc] at h; exact Or.inl (by simp [h])
  | cons p rest ih =>
    obtain ⟨k₀, v₀⟩ := p
    intro h
    rw [setAssoc] at h
    split at h
    · rcases List.mem_cons.mp h with h | h
      · exact Or.inl h
      · exact Or.inr (List.mem_cons_of_mem _ h)
    · rcases List.mem_cons.mp h with h | h
      · exact Or.inr (by rw [h]; exact List.mem_cons_self _ _)
      · rcases ih h with h | h
        · exact Or.inl h
        · exact Or.inr (List.mem_cons_of_mem _ h)

/-- Every dependency-list entry comes from a unit whose truthy name equals
it, differs from the key and occurs in the text. -/
theorem mem_depsFor {units : List CodeUnit} {u : CodeUnit} {d : String} :
    d ∈ depsFor units u →
      ∃ other ∈ units, other.nameOpt = some d ∧ d ≠ "" ∧ d ≠ keyOf u ∧
        containsList u.text d.data = true := by
  have gen : ∀ (l : List CodeUnit) (acc : List String),
      d ∈ l.foldl
        (fun acc other =>
          match other.nameOpt with
          | some otherName =>
            if otherName ≠ "" ∧ otherName ≠ keyOf u ∧ containsList u.text otherName.data = true
            then acc ++ [otherName] else acc
          | none => acc) acc →
      d ∈ acc ∨ ∃ other ∈ l, other.nameOpt = some d ∧ d ≠ "" ∧ d ≠ keyOf u ∧
        containsList u.text d.data = true := by
    intro l
    induction l with
    | nil => intro acc h; exact Or.inl h
    | cons x xs ih =>
      intro acc h
      rw [List.foldl_cons] at h
      rcases ih _ h with hacc | ⟨other, hmem, hrest⟩
      · match hx : x.nameOpt with
        | some n =>
          rw [hx] at hacc
          change d ∈ (if n ≠ "" ∧ n ≠ keyOf u ∧ containsList u.text n.data = true
            then acc ++ [n] else acc) at hacc
          split at hacc
          case isTrue hcond =>
            rcases List.mem_append.mp hacc with h1 | h1
            · exact Or.inl h1
            · have hdn : d = n := by simpa using h1
              subst hdn
              exact Or.inr ⟨x, List.mem_cons_self _ _, hx, hcond.1, hcond.2.1, hcond.2.2⟩
          case isFalse hcond =>
            exact Or.inl hacc
        | none => rw [hx] at hacc; exact Or.inl hacc
      · exact Or.inr ⟨other, List.mem_cons_of_mem _ hmem, hrest⟩
  intro h
  rcases gen units [] h with h0 | h0
  · simp at h0
  · exact h0

/-- Every graph entry is keyed by the key of some unit and carries that
unit's dependency list. -/
theorem graph_entry {units : List CodeUnit} {k : String} {deps : List String} :
    (k, deps) ∈ buildDependencyGraph units →
      ∃ u ∈ units, k = keyOf u ∧ deps = depsFor units u := by
  have gen : ∀ (l : List CodeUnit) (g₀ : List (String × List String)),
      (k, deps) ∈ l.foldl (fun graph unit => setAssoc graph (keyOf unit) (depsFor units unit)) g₀ →
      (k, deps) ∈ g₀ ∨ ∃ u ∈ l, k = keyOf u ∧ deps = depsFor units u := by
    intro l
    induction l with
    | nil => intro g₀ h; exact Or.inl h
    | cons x xs ih =>
      intro g₀ h
      rw [List.foldl_cons] at h
      rcases ih _ h with h0 | ⟨u, hmem, hrest⟩
      · rcases mem_setAssoc h0 with h1 | h1
        · have hk : k = keyOf x := congrArg Prod.fst h1
          have hv : deps = depsFor units x := congrArg Prod.snd h1
          exact Or.inr ⟨x, List.mem_cons_self _ _, hk, hv⟩
        · exact Or.inl h1
      · exact Or.inr ⟨u, List.mem_cons_of_mem _ hmem, hrest⟩
  intro h
  rcases gen units [] h with h0 | h0
  · simp at h0
  · exact h0

theorem dfs_inv (g : List (String × List String)) :
    ∀ (fuel : ℕ) (node : String) (s : DfsState),
      (∀ c ∈ s.cycles, ∀ x ∈ c, isTarget g x) →
      (∀ x ∈ s.path.drop 1, isTarget g x) →
      (isTarget g node ∨ node ∉ s.recStack) →
      (s.path = [] ∨ isTarget g node) →
      (∀ c ∈ (dfs g fuel node s).cycles, ∀ x ∈ c, isTarget g x) ∧
        (dfs g fuel node s).path = s.path ∧
        (dfs g fuel node s).recStack = s.recStack ∧
        s.visited ⊆ (dfs g fuel node s).visited := by
  intro fuel
  induction fuel with
  | zero =>
    intro node s hc hp hn hp0
    exact ⟨hc, rfl, rfl, fun x hx => hx⟩
  | succ fuel ih =>
    intro node s hc hp hn hp0
    rw [dfs]
    by_cases h1 : node ∈ s.recStack
    · rw [if_pos h1]
      refine ⟨?_, rfl, rfl, fun x hx => hx⟩
      intro c hcmem x hx
      rcases List.mem_append.mp hcmem with hold | hnew
      · exact hc c hold x hx
      · have hcc : c = s.path.drop (s.path.indexOf node) := by simpa using hnew
        subst hcc
        have htarget : isTarget g node := hn.resolve_right (fun hr => hr h1)
        cases hpath : s.path with
        | nil => rw [hpath] at hx; simp at hx
        | cons p t =>
          rw [hpath] at hx
          rw [List.indexOf_cons] at hx
          by_cases hpn : p = node
          · subst hpn
            simp only [beq_self_eq_true, cond_true, List.drop_zero] at hx
            rcases List.mem_cons.mp hx with hx | hx
            · subst hx; exact htarget
            · exact hp x (by rw [hpath]; simpa using hx)
          · have hbeq : (p == node) = false := beq_false_of_ne hpn
            rw [hbeq] at hx
            simp only [cond_false] at hx
            have hsub : x ∈ t := List.drop_subset _ t hx
            exact hp x (by rw [hpath]; simpa using hsub)
    · rw [if_neg h1]
      by_cases h2 : node ∈ s.visited
      · rw [if_pos h2]
        exact ⟨hc, rfl, rfl, fun x hx => hx⟩
      · rw [if_neg h2]
        show _ ∧ _ ∧ _ ∧ _
        -- inner induction over the neighbour fold
        have hfold : ∀ (deps : List String) (st : DfsState),
            (∀ c ∈ st.cycles, ∀ x ∈ c, isTarget g x) →
            (∀ x ∈ st.path.drop 1, isTarget g x) →
            (∀ nb ∈ deps, isTarget g nb) →
            (∀ c ∈ (deps.foldl (fun st' nb => dfs g fuel nb st') st).cycles,
                ∀ x ∈ c, isTarget g x) ∧
              (deps.foldl (fun st' nb => dfs g fuel nb st') st).path = st.path ∧
              (deps.foldl (fun st' nb => dfs g fuel nb st') st).recStack = st.recStack ∧
              st.visited ⊆ (deps.foldl (fun st' nb => dfs g fuel nb st') st).visited := by
          intro deps
          induction deps with
          | nil => intro st ha hb hd; exact ⟨ha, rfl, rfl, fun x hx => hx⟩
          | cons nb rest ihd =>
            intro st ha hb hd
            rw [List.foldl_cons]
            have hnb : isTarget g nb := hd nb (List.mem_cons_self _ _)
            obtain ⟨hc', hpath', hrec', hvis'⟩ :=
              ih nb st ha hb (Or.inl hnb) (Or.inr hnb)
            obtain ⟨hc'', hpath'', hrec'', hvis''⟩ :=
              ihd (dfs g fuel nb st) hc' (by rw [hpath']; exact hb)
                (fun m hm => hd m (List.mem_cons_of_mem _ hm))
            exact ⟨hc'', by rw [hpath'', hpath'], by rw [hrec'', hrec'],
              fun x hx => hvis'' (hvis' hx)⟩
        set s₁ : DfsState :=
          { s with visited := s.visited ++ [node], recStack := s.recStack ++ [node],
                   path := s.path ++ [node] } with hs₁
        have hc₁ : ∀ c ∈ s₁.cycles, ∀ x ∈ c, isTarget g x := hc
        have hp₁ : ∀ x ∈ s₁.path.drop 1, isTarget g x := by
          intro x hx
          simp only [hs₁] at hx
          rcases hp0 with hnil | htarget
          · rw [hnil] at hx
            simp at hx
          · cases hpath : s.path with
            | nil => rw [hpath] at hx; simp at hx
            | cons p t =>
              rw [hpath] at hx
              simp only [List.cons_append, List.drop_succ_cons, List.drop_zero] at hx
              rcases List.mem_append.mp hx with hmem | hmem
              · exact hp x (by rw [hpath]; simpa using hmem)
              · have hxn : x = node := by simpa using hmem
                subst hxn; exact htarget
        have hd₁ : ∀ nb ∈ (getAssoc g node).getD [], isTarget g nb := by
          cases hga : getAssoc g node with
          | none => simp
          | some deps =>
            intro nb hnb
            simp only [Option.getD_some] at hnb
            exact ⟨node, deps, getAssoc_mem hga, hnb⟩
        obtain ⟨hcf, hpf, hrf, hvf⟩ := hfold ((getAssoc g node).getD []) s₁ hc₁ hp₁ hd₁
        refine ⟨hcf, ?_, ?_, ?_⟩
        · show (_ : DfsState).path.dropLast = s.path
          rw [hpf]
          simp only [hs₁]
          exact List.dropLast_concat
        · show (_ : DfsState).recStack.erase node = s.recStack
          rw [hrf]
          simp only [hs₁]
          rw [List.erase_append_right _ h1, List.erase_cons_head, List.append_nil]
        · intro x hx
          exact hvf (by simp only [hs₁]; exact List.mem_append_left _ hx)

theorem detectCycles_targets (g : List (String × List String)) :
    ∀ c ∈ detectCycles g, ∀ x ∈ c, isTarget g x := by
  have gen : ∀ (keys : List String) (s : DfsState),
      (∀ c ∈ s.cycles, ∀ x ∈ c, isTarget g x) →
      s.recStack = [] →
      (∀ c ∈ (keys.foldl
          (fun s node => if node ∈ s.visited then s else dfs g (dfsFuel g) node { s with path := [] })
          s).cycles, ∀ x ∈ c, isTarget g x) ∧
        (keys.foldl
          (fun s node => if node ∈ s.visited then s else dfs g (dfsFuel g) node { s with path := [] })
          s).recStack = [] := by
    intro keys
    induction keys with
    | nil => intro s h1 h2; exact ⟨h1, h2⟩
    | cons k ks ihk =>
      intro s h1 h2
      rw [List.foldl_cons]
      by_cases hv : k ∈ s.visited
      · rw [if_pos hv]; exact ihk s h1 h2
      · rw [if_neg hv]
        obtain ⟨hc', hp', hr', hv'⟩ :=
          dfs_inv g (dfsFuel g) k { s with path := [] } h1
            (by intro x hx; simp at hx)
            (Or.inr (by show k ∉ s.recStack; rw [h2]; exact List.not_mem_nil k))
            (Or.inl rfl)
        exact ihk _ hc' (by rw [hr']; exact h2)
  intro c hcmem x hx
  exact (gen (g.map Prod.fst) ⟨[], [], [], []⟩ (by intro c hc; simp at hc) rfl).1 c hcmem x hx

/-- Claim C10: every name in any dependency list of the graph is the
extractable (truthy) name of some unit of the list and differs from the key
it is listed under; consequently every node of every reported cycle is the
extractable name of some unit, so no cycle passes through a nameless unit
(whose getName() is undefined or empty). -/
theorem claim_C10 (units : List CodeUnit) :
    (∀ k deps, (k, deps) ∈ buildDependencyGraph units → ∀ d ∈ deps,
        (∃ u ∈ units, u.nameOpt = some d ∧ d ≠ "") ∧ d ≠ k) ∧
      ∀ c ∈ detectCycles (buildDependencyGraph units), ∀ x ∈ c,
        ∃ u ∈ units, u.nameOpt = some x ∧ x ≠ "" := by
  have hedge : ∀ k deps, (k, deps) ∈ buildDependencyGraph units → ∀ d ∈ deps,
      (∃ u ∈ units, u.nameOpt = some d ∧ d ≠ "") ∧ d ≠ k := by
    intro k deps hmem d hd
    obtain ⟨u, humem, hk, hdeps⟩ := graph_entry hmem
    obtain ⟨other, ho, hname, hne, hnk, _⟩ := mem_depsFor (hdeps ▸ hd)
    exact ⟨⟨other, ho, hname, hne⟩, hk ▸ hnk⟩
  refine ⟨hedge, ?_⟩
  intro c hcmem x hx
  obtain ⟨k, deps, hmem, hd⟩ := detectCycles_targets (buildDependencyGraph units) c hcmem x hx
  exact (hedge k deps hmem x hd).1

theorem claim_C10_witness :
    (∃ u ∈ [fnFoo, fnBar], CodeUnit.nameOpt u = some "bar" ∧ "bar" ≠ "") ∧ "bar" ≠ "foo" :=
  (claim_C10 [fnFoo, fnBar]).1 "foo" ["bar"] (by decide) "bar" (by decide)
